import Mathlib

/-!
Verification of the field-dependency resolution and merge engine of
elastic-package (internal/fields/dependency_manager.go).

The Go code operates on dynamically typed attribute maps
(common.MapStr = map of string to interface values).  We embed the
value universe as an inductive type covering exactly the dynamic shapes
the program constructs or inspects: strings, booleans, string slices
(normalize), generic value slices (YAML sequences), MapStr slices
(built fields collections) and nested maps.  Maps are embedded as
ordered association lists; Go map keys are unique, which theorems state
as an explicit hypothesis where it matters.
-/

/-- Dynamic value universe for attribute maps (Go interface values). -/
inductive Value where
  | vStr : String → Value
  | vBool : Bool → Value
  | vStrList : List String → Value
  | vList : List Value → Value
  | vMapList : List (List (String × Value)) → Value
  | vMap : List (String × Value) → Value

/-- Embedding of common.MapStr: an ordered association list with string keys. -/
abbrev MapStr := List (String × Value)

/-- Modelled from the spec: common.MapStr.GetValue for a plain (undotted) key,
as used by the merge engine; returns the first binding of the key. -/
def getValue (k : String) : MapStr → Option Value
  | [] => none
  | (k', v) :: rest => if k' == k then some v else getValue k rest

/-- Modelled from the spec: common.MapStr.Put for a plain key: replaces the
first binding of the key in place, or appends a new binding. -/
def put (k : String) (v : Value) : MapStr → MapStr
  | [] => [(k, v)]
  | (k', v') :: rest => if k' == k then (k, v) :: rest else (k', v') :: put k v rest

/-- Modelled from the spec: common.MapStr.Delete for a plain key: removes the
bindings of the key. -/
def deleteKey (k : String) : MapStr → MapStr
  | [] => []
  | (k', v) :: rest => if k' == k then deleteKey k rest else (k', v) :: deleteKey k rest

/-- Embedding of FieldDefinition: a single schema field node, with the
attributes used by the injection engine (name, type, description, pattern,
index, doc_values, normalize, multi_fields). -/
inductive FieldDefinition where
  | mk : String → String → String → String → Option Bool → Option Bool →
      List String → List FieldDefinition → FieldDefinition

def FieldDefinition.name : FieldDefinition → String
  | ⟨n, _, _, _, _, _, _, _⟩ => n

def FieldDefinition.type : FieldDefinition → String
  | ⟨_, t, _, _, _, _, _, _⟩ => t

def FieldDefinition.description : FieldDefinition → String
  | ⟨_, _, d, _, _, _, _, _⟩ => d

def FieldDefinition.pattern : FieldDefinition → String
  | ⟨_, _, _, p, _, _, _, _⟩ => p

def FieldDefinition.index : FieldDefinition → Option Bool
  | ⟨_, _, _, _, i, _, _, _⟩ => i

def FieldDefinition.docValues : FieldDefinition → Option Bool
  | ⟨_, _, _, _, _, d, _, _⟩ => d

def FieldDefinition.normalize : FieldDefinition → List String
  | ⟨_, _, _, _, _, _, n, _⟩ => n

def FieldDefinition.multiFields : FieldDefinition → List FieldDefinition
  | ⟨_, _, _, _, _, _, _, m⟩ => m

/-- Distinguished error values produced by the dependency manager. -/
inductive Err where
  | externalFieldsNotAllowed (path : String)
  | schemaNotDefined (name : String)
  | fieldNotFound (path : String)
  | cantConvertFields
  | invalidGitReference
  | locationError
  | cacheReadError
  | transportError
  | unsatisfiedDependency
  | unexpectedStatus (code : Nat)
  | bodyReadError
  | mkdirError
  | writeCacheError
  | parseError
  | wrap (msg : String) (cause : Err)
deriving DecidableEq


/-- Embedding of the ecs schema name constant. -/
def ecsSchemaName : String := "ecs"

/-- Embedding of the git reference prefix constant. -/
def gitReferencePrefix : String := "git@"

/-- Embedding of asGitReference: strips the mandatory git prefix from the
dependency reference, failing on references without it. -/
def asGitReference (reference : String) : Except Err String :=
  if gitReferencePrefix.toList.isPrefixOf reference.toList then
    .ok (String.mk (reference.toList.drop gitReferencePrefix.length))
  else
    .error .invalidGitReference

/-- Embedding of transformImportedField (non-recursive part): renders an
imported FieldDefinition as a canonical attribute map; optional attributes
are omitted when empty or unset.  The multi_fields recursion is layered on
top, with a fuel bound on its depth (theorems supply adequate fuel). -/
def transformBase (fd : FieldDefinition) : MapStr :=
  [("name", .vStr fd.name), ("type", .vStr fd.type)]
  ++ (if fd.description != "" then [("description", .vStr fd.description)] else [])
  ++ (if fd.pattern != "" then [("pattern", .vStr fd.pattern)] else [])
  ++ (match fd.index with
      | some b => [("index", .vBool b)]
      | none => [])
  ++ (match fd.docValues with
      | some b => [("doc_values", .vBool b)]
      | none => [])
  ++ (if fd.normalize.isEmpty then [] else [("normalize", .vStrList fd.normalize)])

/-- Embedding of transformImportedField (recursive part): the canonical
attribute map followed by the recursively transformed multi_fields, when
present. -/
def transformImportedField : Nat → FieldDefinition → MapStr
  | fuel, fd =>
    transformBase fd ++
      (match fuel, fd.multiFields with
       | _, [] => []
       | 0, _ :: _ => []
       | f + 1, mf :: mfs => [("multi_fields", .vMapList ((mf :: mfs).map (transformImportedField f)))])

/-- Modelled from the spec: common.MapStr.DeepUpdate, merging the second
map's attributes on top of the first; nested maps are merged recursively,
any other value overwrites.  The fuel argument bounds the traversal; with
insufficient fuel remaining attributes are left unmerged (theorems supply
adequate fuel). -/
def deepUpdate : Nat → MapStr → MapStr → MapStr
  | 0, base, _ => base
  | _ + 1, base, [] => base
  | fuel + 1, base, (k, v) :: rest =>
    let base' :=
      match v, getValue k base with
      | .vMap sub, some (.vMap bsub) => put k (.vMap (deepUpdate fuel bsub sub)) base
      | _, _ => put k v base
    deepUpdate fuel base' rest

/-- Modelled from the spec: common.ToMapStrSlice on the elements of a
generic value list; every element must be a nested attribute map. -/
def toMapStrSliceAux : List Value → Except Err (List MapStr)
  | [] => .ok []
  | .vMap m :: rest => (toMapStrSliceAux rest).map (fun l => m :: l)
  | _ :: _ => .error .cantConvertFields

/-- Modelled from the spec: common.ToMapStrSlice, converting a nested fields
value (a sequence of attribute maps) to a MapStr slice; any other dynamic
shape is a conversion error. -/
def toMapStrSlice : Value → Except Err (List MapStr)
  | .vMapList l => .ok l
  | .vList l => toMapStrSliceAux l
  | _ => .error .cantConvertFields

/-- Embedding of skipField: a field is dropped when its type is the group
marker and its fields value is absent, an empty generic list, or an empty
MapStr slice. -/
def skipField (d : MapStr) : Bool :=
  match getValue "type" d with
  | some (.vStr "group") =>
    match getValue "fields" d with
    | none => true
    | some (.vList l) => l.isEmpty
    | some (.vMapList l) => l.isEmpty
    | some _ => false
  | _ => false

/-- Modelled from the spec: FindElementDefinition's walk over dot-separated
path segments (the function lives outside the embedded file): the first
segment is matched against the definitions' names, first match wins; with
more segments remaining the walk descends into the matched definition's
nested multi-field children. -/
def findInSegments : List String → List FieldDefinition → Option FieldDefinition
  | [], _ => none
  | [s], defs => defs.find? (fun d => d.name == s)
  | s :: s' :: rest, defs =>
    match defs.find? (fun d => d.name == s) with
    | none => none
    | some d => findInSegments (s' :: rest) d.multiFields

/-- Splits a dotted field path into its segments. -/
def splitDotsAux : List Char → List Char → List String
  | [], acc => [String.mk acc.reverse]
  | c :: rest, acc =>
    if c == '.' then String.mk acc.reverse :: splitDotsAux rest []
    else splitDotsAux rest (c :: acc)

/-- Splits a dotted field path into its segments. -/
def splitDots (s : String) : List String := splitDotsAux s.toList []

/-- Modelled from the spec: FindElementDefinition, looking a dotted field
path up in a schema. -/
def FindElementDefinition (path : String) (schema : List FieldDefinition) : Option FieldDefinition :=
  findInSegments (splitDots path) schema

/-- Embedding of DependencyManager: the resolved schema mapping, keyed by
schema name. -/
structure DependencyManager where
  schema : List (String × List FieldDefinition)

/-- Association lookup in the schema mapping (Go map indexing). -/
def lookupSchema (name : String) : List (String × List FieldDefinition) → Option (List FieldDefinition)
  | [] => none
  | (k, v) :: rest => if k == name then some v else lookupSchema name rest

/-- Embedding of ImportField: resolves one external field against the
available schemas.  The nil receiver (no build manifest) is embedded as the
none case of an optional manager. -/
def ImportField (dm : Option DependencyManager) (schemaName fieldPath : String) :
    Except Err FieldDefinition :=
  match dm with
  | none => .error (.externalFieldsNotAllowed fieldPath)
  | some m =>
    match lookupSchema schemaName m.schema with
    | none => .error (.schemaNotDefined schemaName)
    | some schema =>
      match FindElementDefinition fieldPath schema with
      | none => .error (.fieldNotFound fieldPath)
      | some fd => .ok fd

/-- Embedding of buildFieldPath: dot-joins the accumulated root prefix with
the node's name.  The unchecked Go type assertion on the name attribute is
embedded as the none case (a panic). -/
def buildFieldPath (root : String) (field : MapStr) : Option String :=
  match getValue "name" field with
  | some (.vStr name) => some (if root == "" then name else root ++ "." ++ name)
  | _ => none

/-- Embedding of the comma-ok string assertion the engine applies to the
merged type attribute: a string value is returned as is, anything else
(including an absent value) yields the empty string. -/
def typeStringAssert : Option Value → String
  | some (.vStr s) => s
  | _ => ""

/-- Embedding of the external-branch merge helper, continued: transform the
imported definition, deep-merge the local attributes on top, drop the
external marker, and force the imported type unless the merged type is
constant_keyword overriding an imported keyword. -/
def mergeExternal (fuel : Nat) (imported : FieldDefinition) (d : MapStr) : MapStr :=
  let transformed := transformImportedField fuel imported
  let transformed := deepUpdate fuel transformed d
  let transformed := deleteKey "external" transformed
  if typeStringAssert (getValue "type" transformed) != "constant_keyword"
      || imported.type != "keyword" then
    put "type" (.vStr imported.type) transformed
  else
    transformed

/-- Outcome of the Go triple return of injectFieldsWithRoot; panics embeds
an unchecked type-assertion failure, fuelOut marks exhausted recursion fuel
(never reached with adequate fuel). -/
inductive InjectOut where
  | fuelOut
  | panics
  | result (updated : List MapStr) (changed : Bool) (err : Option Err)

/-- Outcome of processing a single node inside the injection loop. -/
inductive NodeOut where
  | fuelOut
  | panics
  | err (e : Err)
  | ok (d : MapStr) (changed : Bool)

/-- Embedding of injectFieldsWithRoot: walks the local definitions in
order; external nodes are resolved and merged, nodes with nested fields are
recursed into and their fields replaced, prunable nodes are dropped, and
any failure aborts with nil output and a false changed flag.  The fuel
argument bounds recursion depth (theorems supply adequate fuel). -/
def injectFieldsWithRoot (dm : Option DependencyManager) : Nat → String → List MapStr → InjectOut
  | 0, _, _ => .fuelOut
  | _ + 1, _, [] => .result [] false none
  | fuel + 1, root, d :: rest =>
    let headOut : NodeOut :=
      match buildFieldPath root d with
      | none => .panics
      | some fieldPath =>
        match getValue "external" d with
        | some (.vStr ext) =>
          match ImportField dm ext fieldPath with
          | .error e => .err (.wrap "can't import field" e)
          | .ok imported => .ok (mergeExternal fuel imported d) true
        | some _ => .panics
        | none =>
          match getValue "fields" d with
          | none => .ok d false
          | some fieldsVal =>
            match toMapStrSlice fieldsVal with
            | .error e => .err (.wrap "can't convert fields" e)
            | .ok fieldsMs =>
              match injectFieldsWithRoot dm fuel fieldPath fieldsMs with
              | .fuelOut => .fuelOut
              | .panics => .panics
              | .result _ _ (some e) => .err e
              | .result updatedFields fieldsChanged none =>
                .ok (put "fields" (.vMapList updatedFields) d) fieldsChanged
    match headOut with
    | .fuelOut => .fuelOut
    | .panics => .panics
    | .err e => .result [] false (some e)
    | .ok d' changedHere =>
      match injectFieldsWithRoot dm fuel root rest with
      | .fuelOut => .fuelOut
      | .panics => .panics
      | .result _ _ (some e) => .result [] false (some e)
      | .result updRest chRest none =>
        .result (if skipField d' then updRest else d' :: updRest) (changedHere || chRest) none

/-- Embedding of InjectFields: injection over the whole tree starting from
the empty root prefix. -/
def InjectFields (dm : Option DependencyManager) (fuel : Nat) (defs : List MapStr) : InjectOut :=
  injectFieldsWithRoot dm fuel "" defs

/-- Outcome of reading the cached schema file from disk. -/
inductive ReadFileResult where
  | content (c : String)
  | notExist
  | otherErr

/-- Observable input/output actions of readECSFieldsSchemaFile. -/
inductive Event where
  | cacheRead
  | fetch
  | cacheWrite
deriving DecidableEq

/-- Environment of one schema-loading run: the location manager outcome,
the cached file state, the HTTP response (none is a transport failure,
otherwise a status code and an optional successfully-read body), the
outcomes of the cache directory creation and cache write, and the outcome
of parsing the schema document. -/
structure FetchWorld where
  locOk : Bool
  cacheFile : ReadFileResult
  httpGet : Option (Nat × Option String)
  mkdirOk : Bool
  writeOk : Bool
  parsed : Except Err (List FieldDefinition)

/-- Embedding of readECSFieldsSchemaFile: validates the git reference,
reads the cache, and on a cache miss fetches the schema once and writes it
back to the cache; the trace records the cache read, the fetch and the
cache write in order. -/
def readECSFieldsSchemaFile (reference : String) (w : FetchWorld) :
    Except Err String × List Event :=
  match asGitReference reference with
  | .error e => (.error (.wrap "can't process the value as Git reference" e), [])
  | .ok _gitReference =>
    if w.locOk = false then (.error (.wrap "error fetching profile path" .locationError), [])
    else
      match w.cacheFile with
      | .content c => (.ok c, [.cacheRead])
      | .otherErr => (.error .cacheReadError, [.cacheRead])
      | .notExist =>
        match w.httpGet with
        | none => (.error .transportError, [.cacheRead, .fetch])
        | some (status, body) =>
          if status == 404 then
            (.error .unsatisfiedDependency, [.cacheRead, .fetch])
          else if status != 200 then
            (.error (.unexpectedStatus status), [.cacheRead, .fetch])
          else
            match body with
            | none => (.error .bodyReadError, [.cacheRead, .fetch])
            | some c =>
              if w.mkdirOk = false then (.error .mkdirError, [.cacheRead, .fetch])
              else if w.writeOk = false then
                (.error .writeCacheError, [.cacheRead, .fetch, .cacheWrite])
              else (.ok c, [.cacheRead, .fetch, .cacheWrite])

/-- Embedding of the ECS entry of the build manifest dependencies. -/
structure ECSDependency where
  reference : String

/-- Embedding of the build manifest dependencies. -/
structure Dependencies where
  ecs : ECSDependency

/-- Embedding of loadECSFieldsSchema: an empty reference is a silent no-op
yielding no definitions; otherwise the schema file is read and parsed. -/
def loadECSFieldsSchema (dep : ECSDependency) (w : FetchWorld) :
    Except Err (List FieldDefinition) × List Event :=
  if dep.reference == "" then (.ok [], [])
  else
    match readECSFieldsSchemaFile dep.reference w with
    | (.error e, evs) => (.error (.wrap "error reading ECS fields schema file" e), evs)
    | (.ok _content, evs) =>
      match w.parsed with
      | .error e => (.error (.wrap "unmarshalling field body failed" e), evs)
      | .ok fds => (.ok fds, evs)

/-- Embedding of buildFieldsSchema: registers the loaded ECS definitions
under the ecs key, unconditionally. -/
def buildFieldsSchema (deps : Dependencies) (w : FetchWorld) :
    Except Err (List (String × List FieldDefinition)) × List Event :=
  match loadECSFieldsSchema deps.ecs w with
  | (.error e, evs) => (.error (.wrap "can't load fields" e), evs)
  | (.ok ecsSchema, evs) => (.ok [(ecsSchemaName, ecsSchema)], evs)

/-- Embedding of CreateFieldDependencyManager. -/
def CreateFieldDependencyManager (deps : Dependencies) (w : FetchWorld) :
    Except Err DependencyManager × List Event :=
  match buildFieldsSchema deps w with
  | (.error e, evs) => (.error (.wrap "can't build fields schema" e), evs)
  | (.ok schema, evs) => (.ok ⟨schema⟩, evs)

/-- The locally declared type of a node, when it is a string. -/
def declaredType (d : MapStr) : Option String :=
  match getValue "type" d with
  | some (.vStr s) => some s
  | _ => none

/-- Well-formedness precondition of injection: every reachable node carries
a string name, and external markers, when present, are strings.  Nested
fields collections are checked behind the same conversion the engine
applies; fuel mirrors the recursion depth of the engine. -/
def wellFormedFields : Nat → List MapStr → Bool
  | 0, _ => false
  | _ + 1, [] => true
  | fuel + 1, d :: rest =>
    (match getValue "name" d with
     | some (.vStr _) => true
     | _ => false)
    && (match getValue "external" d with
        | some (.vStr _) => true
        | some _ => false
        | none =>
          match getValue "fields" d with
          | none => true
          | some v =>
            match toMapStrSlice v with
            | .error _ => true
            | .ok l => wellFormedFields fuel l)
    && wellFormedFields fuel rest

/-- Canonical already-injected trees: every node carries a string name, no
node carries an external marker, no node is prunable, and every nested
fields collection is a MapStr slice of the same shape; fuel mirrors the
recursion depth of the engine. -/
def alreadyInjected : Nat → List MapStr → Bool
  | 0, _ => false
  | _ + 1, [] => true
  | fuel + 1, d :: rest =>
    (match getValue "name" d with
     | some (.vStr _) => true
     | _ => false)
    && (getValue "external" d).isNone
    && !skipField d
    && (match getValue "fields" d with
        | none => true
        | some (.vMapList l) => alreadyInjected fuel l
        | some _ => false)
    && alreadyInjected fuel rest

/-- Concrete schema and tree for the manifest scenario: the ecs schema
defines event.outcome as a keyword field. -/
def outcomeDef : FieldDefinition := ⟨"outcome", "keyword", "", "", none, none, [], []⟩

/-- Top-level event group of the concrete ecs schema. -/
def eventDef : FieldDefinition := ⟨"event", "group", "", "", none, none, [], [outcomeDef]⟩

/-- Dependency manager holding the concrete ecs schema. -/
def ecsManager : DependencyManager := ⟨[("ecs", [eventDef])]⟩

/-- Local tree of the manifest scenario. -/
def scenarioInput : List MapStr :=
  [[("name", .vStr "event"), ("external", .vStr "ecs"), ("type", .vStr "group"),
    ("fields", .vMapList [[("name", .vStr "outcome")]])]]

/-- The event node the engine actually produces for the scenario. -/
def scenarioMergedEvent : MapStr :=
  [("name", .vStr "event"), ("type", .vStr "group"),
   ("multi_fields", .vMapList [[("name", .vStr "outcome"), ("type", .vStr "keyword")]]),
   ("fields", .vMapList [[("name", .vStr "outcome")]])]

theorem getValue_put_self (k : String) (v : Value) (m : MapStr) :
    getValue k (put k v m) = some v := by
  induction m with
  | nil => simp [put, getValue]
  | cons p rest ih =>
    obtain ⟨k', v'⟩ := p
    simp only [put]
    by_cases h : k' = k
    · simp [h, getValue]
    · simp [h, getValue, ih]

theorem getValue_put_ne (k j : String) (v : Value) (m : MapStr) (h : k ≠ j) :
    getValue j (put k v m) = getValue j m := by
  induction m with
  | nil => simp [put, getValue, h]
  | cons p rest ih =>
    obtain ⟨k', v'⟩ := p
    simp only [put]
    by_cases h' : k' = k
    · subst h'; simp [getValue, h]
    · simp only [h', if_false, beq_iff_eq, getValue, ih]

theorem put_eq_self (k : String) (v : Value) (m : MapStr) (h : getValue k m = some v) :
    put k v m = m := by
  induction m with
  | nil => simp [getValue] at h
  | cons p rest ih =>
    obtain ⟨k', v'⟩ := p
    simp only [getValue] at h
    simp only [put]
    by_cases h' : k' = k
    · simp only [h', beq_self_eq_true, if_true] at h ⊢
      cases h
      rfl
    · simp only [beq_iff_eq, h', if_false] at h ⊢
      rw [ih h]

theorem getValue_deleteKey_ne (k j : String) (m : MapStr) (h : k ≠ j) :
    getValue j (deleteKey k m) = getValue j m := by
  induction m with
  | nil => simp [deleteKey]
  | cons p rest ih =>
    obtain ⟨k', v'⟩ := p
    simp only [deleteKey]
    by_cases h' : k' = k
    · subst h'; simp [getValue, h, ih]
    · simp only [beq_iff_eq, h', if_false, getValue, ih]

theorem getValue_eq_none_of_not_mem (j : String) (m : MapStr)
    (h : j ∉ m.map Prod.fst) : getValue j m = none := by
  induction m with
  | nil => simp [getValue]
  | cons p rest ih =>
    obtain ⟨k, v⟩ := p
    simp only [List.map_cons, List.mem_cons, not_or] at h
    simp only [getValue, beq_iff_eq]
    rw [if_neg (fun hk => h.1 hk.symm)]
    exact ih h.2

theorem getValue_append (k : String) (m m' : MapStr) :
    getValue k (m ++ m') = (getValue k m).or (getValue k m') := by
  induction m with
  | nil => simp [getValue]
  | cons p rest ih =>
    obtain ⟨k', v⟩ := p
    simp only [List.cons_append, getValue]
    split <;> simp [ih]

theorem getValue_type_transformBase (fd : FieldDefinition) :
    getValue "type" (transformBase fd) = some (.vStr fd.type) := by
  unfold transformBase
  repeat' split
  all_goals rfl

theorem getValue_type_transform (fuel : Nat) (fd : FieldDefinition) :
    getValue "type" (transformImportedField fuel fd) = some (.vStr fd.type) := by
  unfold transformImportedField
  rw [getValue_append, getValue_type_transformBase]
  rfl

theorem deepUpdate_getValue_absent (j : String) :
    ∀ (d : MapStr) (fuel : Nat) (base : MapStr), getValue j d = none →
      getValue j (deepUpdate fuel base d) = getValue j base := by
  intro d
  induction d with
  | nil => intro fuel base _; cases fuel <;> rfl
  | cons p rest ih =>
    intro fuel base h
    obtain ⟨k, v⟩ := p
    simp only [getValue] at h
    by_cases hk : k = j
    · subst hk; simp at h
    · rw [if_neg (by simpa using hk)] at h
      cases fuel with
      | zero => rfl
      | succ f =>
        simp only [deepUpdate]
        rw [ih f _ h]
        split
        · exact getValue_put_ne k j _ base hk
        · exact getValue_put_ne k j _ base hk

theorem deepUpdate_getValue_present (j : String) :
    ∀ (d : MapStr) (fuel : Nat) (base : MapStr) (v : Value),
      getValue j d = some v → d.length ≤ fuel → (d.map Prod.fst).Nodup →
      (∀ sub, v ≠ .vMap sub) →
      getValue j (deepUpdate fuel base d) = some v := by
  intro d
  induction d with
  | nil => intro fuel base v h _ _ _; simp [getValue] at h
  | cons p rest ih =>
    intro fuel base v h hlen hnd hv
    obtain ⟨k, v'⟩ := p
    cases fuel with
    | zero => simp at hlen
    | succ f =>
      simp only [getValue] at h
      simp only [List.map_cons, List.nodup_cons] at hnd
      have hlen' : rest.length ≤ f := by simpa using hlen
      simp only [deepUpdate]
      by_cases hk : k = j
      · subst hk
        rw [if_pos (by simp)] at h
        cases h
        have hrest : getValue k rest = none := getValue_eq_none_of_not_mem k rest hnd.1
        rw [deepUpdate_getValue_absent k rest f _ hrest]
        cases v with
        | vMap sub => exact absurd rfl (hv sub)
        | vStr s => exact getValue_put_self k _ base
        | vBool b => exact getValue_put_self k _ base
        | vStrList l => exact getValue_put_self k _ base
        | vList l => exact getValue_put_self k _ base
        | vMapList l => exact getValue_put_self k _ base
      · rw [if_neg (by simpa using hk)] at h
        exact ih f _ v h hlen' hnd.2 hv

theorem deepUpdate_getValue_present_map (j : String) :
    ∀ (d : MapStr) (fuel : Nat) (base : MapStr) (sub : MapStr),
      getValue j d = some (.vMap sub) → d.length ≤ fuel → (d.map Prod.fst).Nodup →
      ∃ sub', getValue j (deepUpdate fuel base d) = some (.vMap sub') := by
  intro d
  induction d with
  | nil => intro fuel base sub h _ _; simp [getValue] at h
  | cons p rest ih =>
    intro fuel base sub h hlen hnd
    obtain ⟨k, v'⟩ := p
    cases fuel with
    | zero => simp at hlen
    | succ f =>
      simp only [getValue] at h
      simp only [List.map_cons, List.nodup_cons] at hnd
      have hlen' : rest.length ≤ f := by simpa using hlen
      simp only [deepUpdate]
      by_cases hk : k = j
      · subst hk
        rw [if_pos (by simp)] at h
        cases h
        have hrest : getValue k rest = none := getValue_eq_none_of_not_mem k rest hnd.1
        rw [deepUpdate_getValue_absent k rest f _ hrest]
        rcases hgb : getValue k base with _ | vb
        · exact ⟨sub, getValue_put_self k _ base⟩
        · cases vb with
          | vMap bsub => exact ⟨deepUpdate f bsub sub, getValue_put_self k _ base⟩
          | vStr s => exact ⟨sub, getValue_put_self k _ base⟩
          | vBool b => exact ⟨sub, getValue_put_self k _ base⟩
          | vStrList l => exact ⟨sub, getValue_put_self k _ base⟩
          | vList l => exact ⟨sub, getValue_put_self k _ base⟩
          | vMapList l => exact ⟨sub, getValue_put_self k _ base⟩
      · rw [if_neg (by simpa using hk)] at h
        exact ih f _ sub h hlen' hnd.2

theorem typeStringAssert_eq_ck (v : Option Value)
    (h : typeStringAssert v = "constant_keyword") : v = some (.vStr "constant_keyword") := by
  match v with
  | none => exact absurd (show ("" : String) = "constant_keyword" from h) (by decide)
  | some (.vStr s) => rw [show typeStringAssert (some (.vStr s)) = s from rfl] at h; rw [h]
  | some (.vBool b) => exact absurd (show ("" : String) = "constant_keyword" from h) (by decide)
  | some (.vStrList l) => exact absurd (show ("" : String) = "constant_keyword" from h) (by decide)
  | some (.vList l) => exact absurd (show ("" : String) = "constant_keyword" from h) (by decide)
  | some (.vMapList l) => exact absurd (show ("" : String) = "constant_keyword" from h) (by decide)
  | some (.vMap m) => exact absurd (show ("" : String) = "constant_keyword" from h) (by decide)

theorem mergeStep_type (imp : String) (t2 : MapStr) (v : Option Value)
    (hv : getValue "type" t2 = v) :
    getValue "type"
      (if typeStringAssert v != "constant_keyword" || imp != "keyword" then
        put "type" (.vStr imp) t2
      else t2)
    = some (.vStr (if typeStringAssert v = "constant_keyword" ∧ imp = "keyword" then
        "constant_keyword" else imp)) := by
  split
  · rename_i hcond
    rw [if_neg (fun hP => by simp [hP.1, hP.2] at hcond)]
    exact getValue_put_self _ _ _
  · rename_i hcond
    simp only [Bool.or_eq_true, bne_iff_ne, ne_eq, not_or, Decidable.not_not] at hcond
    rw [if_pos ⟨hcond.1, hcond.2⟩, hv]
    exact typeStringAssert_eq_ck v hcond.1

theorem mergeExternal_type_core (fuel : Nat) (imported : FieldDefinition) (d : MapStr)
    (hlen : d.length ≤ fuel) (hnd : (d.map Prod.fst).Nodup) :
    getValue "type" (mergeExternal fuel imported d) =
      some (.vStr (if declaredType d = some "constant_keyword" ∧ imported.type = "keyword"
        then "constant_keyword" else imported.type)) := by
  have hne : ("external" : String) ≠ "type" := by decide
  simp only [mergeExternal]
  rcases hd : getValue "type" d with _ | v
  · have h2 : getValue "type"
        (deleteKey "external" (deepUpdate fuel (transformImportedField fuel imported) d))
        = some (.vStr imported.type) := by
      rw [getValue_deleteKey_ne _ _ _ hne,
        deepUpdate_getValue_absent "type" d fuel _ hd, getValue_type_transform]
    rw [h2, mergeStep_type imported.type _ _ h2]
    rw [if_neg (fun hP => by
      have ha : imported.type = "constant_keyword" :=
        (show typeStringAssert (some (.vStr imported.type)) = "constant_keyword" from hP.1)
      rw [ha] at hP
      exact absurd hP.2 (by decide))]
    rw [if_neg (by simp [declaredType, hd])]
  · cases v with
    | vStr s =>
      have h2 : getValue "type"
          (deleteKey "external" (deepUpdate fuel (transformImportedField fuel imported) d))
          = some (.vStr s) := by
        rw [getValue_deleteKey_ne _ _ _ hne]
        exact deepUpdate_getValue_present "type" d fuel _ _ hd hlen hnd (fun sub h => by cases h)
      have hdt : declaredType d = some s := by simp [declaredType, hd]
      rw [h2, mergeStep_type imported.type _ _ h2]
      by_cases hP : s = "constant_keyword" ∧ imported.type = "keyword"
      · rw [if_pos (show typeStringAssert (some (.vStr s)) = "constant_keyword"
            ∧ imported.type = "keyword" from hP)]
        rw [if_pos ⟨hdt.trans (congrArg some hP.1), hP.2⟩]
      · rw [if_neg (show ¬(typeStringAssert (some (.vStr s)) = "constant_keyword"
            ∧ imported.type = "keyword") from hP)]
        rw [if_neg (fun hQ => hP ⟨Option.some.inj (hdt.symm.trans hQ.1), hQ.2⟩)]
    | vBool b =>
      have h2 : getValue "type"
          (deleteKey "external" (deepUpdate fuel (transformImportedField fuel imported) d))
          = some (.vBool b) := by
        rw [getValue_deleteKey_ne _ _ _ hne]
        exact deepUpdate_getValue_present "type" d fuel _ _ hd hlen hnd (fun sub h => by cases h)
      rw [h2, mergeStep_type imported.type _ _ h2]
      rw [if_neg (fun hQ =>
        absurd (show ("" : String) = "constant_keyword" from hQ.1) (by decide))]
      rw [if_neg (by simp [declaredType, hd])]
    | vStrList l =>
      have h2 : getValue "type"
          (deleteKey "external" (deepUpdate fuel (transformImportedField fuel imported) d))
          = some (.vStrList l) := by
        rw [getValue_deleteKey_ne _ _ _ hne]
        exact deepUpdate_getValue_present "type" d fuel _ _ hd hlen hnd (fun sub h => by cases h)
      rw [h2, mergeStep_type imported.type _ _ h2]
      rw [if_neg (fun hQ =>
        absurd (show ("" : String) = "constant_keyword" from hQ.1) (by decide))]
      rw [if_neg (by simp [declaredType, hd])]
    | vList l =>
      have h2 : getValue "type"
          (deleteKey "external" (deepUpdate fuel (transformImportedField fuel imported) d))
          = some (.vList l) := by
        rw [getValue_deleteKey_ne _ _ _ hne]
        exact deepUpdate_getValue_present "type" d fuel _ _ hd hlen hnd (fun sub h => by cases h)
      rw [h2, mergeStep_type imported.type _ _ h2]
      rw [if_neg (fun hQ =>
        absurd (show ("" : String) = "constant_keyword" from hQ.1) (by decide))]
      rw [if_neg (by simp [declaredType, hd])]
    | vMapList l =>
      have h2 : getValue "type"
          (deleteKey "external" (deepUpdate fuel (transformImportedField fuel imported) d))
          = some (.vMapList l) := by
        rw [getValue_deleteKey_ne _ _ _ hne]
        exact deepUpdate_getValue_present "type" d fuel _ _ hd hlen hnd (fun sub h => by cases h)
      rw [h2, mergeStep_type imported.type _ _ h2]
      rw [if_neg (fun hQ =>
        absurd (show ("" : String) = "constant_keyword" from hQ.1) (by decide))]
      rw [if_neg (by simp [declaredType, hd])]
    | vMap sub =>
      obtain ⟨sub', h2'⟩ := deepUpdate_getValue_present_map "type" d fuel
        (transformImportedField fuel imported) sub hd hlen hnd
      have h2 : getValue "type"
          (deleteKey "external" (deepUpdate fuel (transformImportedField fuel imported) d))
          = some (.vMap sub') := by
        rw [getValue_deleteKey_ne _ _ _ hne]; exact h2'
      rw [h2, mergeStep_type imported.type _ _ h2]
      rw [if_neg (fun hQ =>
        absurd (show ("" : String) = "constant_keyword" from hQ.1) (by decide))]
      rw [if_neg (by simp [declaredType, hd])]

/-- C2: for every external node merged during injection, the merged type is
the locally declared constant_keyword when the imported type is keyword,
and the imported type for every other pair of imported and locally
declared types (including a missing local type). -/
theorem claim_C2_type_override (fuel : Nat) (imported : FieldDefinition) (d : MapStr)
    (hlen : d.length ≤ fuel) (hnd : (d.map Prod.fst).Nodup) :
    getValue "type" (mergeExternal fuel imported d) =
      some (.vStr (if declaredType d = some "constant_keyword" ∧ imported.type = "keyword"
        then "constant_keyword" else imported.type)) :=
  mergeExternal_type_core fuel imported d hlen hnd

/-- Witness for C2: a local constant_keyword override of an imported
keyword field keeps the constant_keyword type. -/
theorem claim_C2_witness :
    getValue "type" (mergeExternal 3 outcomeDef
      [("name", .vStr "outcome"), ("external", .vStr "ecs"), ("type", .vStr "constant_keyword")])
      = some (.vStr "constant_keyword") := by
  have h := claim_C2_type_override 3 outcomeDef
    [("name", .vStr "outcome"), ("external", .vStr "ecs"), ("type", .vStr "constant_keyword")]
    (by simp) (by simp)
  exact h.trans (by rfl)

/-- Counterexample to C3 as stated: a group node whose fields value is an
empty string list is an empty ordered sequence, yet skipField does not
prune it, so the prune rule does depend on the concrete container shape. -/
theorem claim_C3_counterexample :
    skipField [("name", .vStr "g"), ("type", .vStr "group"), ("fields", .vStrList [])] = false
    ∧ (getValue "type" [("name", .vStr "g"), ("type", .vStr "group"),
          ("fields", .vStrList [])] = some (.vStr "group"))
    ∧ (getValue "fields" [("name", .vStr "g"), ("type", .vStr "group"),
          ("fields", .vStrList [])] = some (.vStrList [])) := by
  exact ⟨rfl, rfl, rfl⟩

/-- C3 (amended): skipField holds iff the node's type is the group marker
and its fields value is absent, an empty generic list, or an empty MapStr
slice; an empty sequence of any other concrete element shape is not
pruned. -/
theorem claim_C3_prune_rule (d : MapStr) :
    skipField d = true ↔
      (getValue "type" d = some (.vStr "group") ∧
        (getValue "fields" d = none ∨ getValue "fields" d = some (.vList []) ∨
         getValue "fields" d = some (.vMapList []))) := by
  simp only [skipField]
  rcases ht : getValue "type" d with _ | v
  · simp
  · cases v with
    | vStr s =>
      by_cases hs : s = "group"
      · subst hs
        rcases hf : getValue "fields" d with _ | w
        · simp
        · cases w <;> simp [List.isEmpty_iff]
      · simp [hs]
    | vBool b => simp
    | vStrList l => simp
    | vList l => simp
    | vMapList l => simp
    | vMap m => simp

/-- C4: ImportField fails in exactly three distinguished ways; the nil
manager yields the external-fields-not-allowed error naming the path, an
unknown schema name yields the schema-not-defined error, a failed path
lookup yields the field-definition-not-found error naming the path, and
every successful lookup returns the exact matching definition. -/
theorem claim_C4_importField_spec (dm : Option DependencyManager) (name path : String) :
    (dm = none → ImportField dm name path = .error (.externalFieldsNotAllowed path)) ∧
    (∀ m, dm = some m → lookupSchema name m.schema = none →
        ImportField dm name path = .error (.schemaNotDefined name)) ∧
    (∀ m s, dm = some m → lookupSchema name m.schema = some s →
        FindElementDefinition path s = none →
        ImportField dm name path = .error (.fieldNotFound path)) ∧
    (∀ m s fd, dm = some m → lookupSchema name m.schema = some s →
        FindElementDefinition path s = some fd → ImportField dm name path = .ok fd) ∧
    (∀ e, ImportField dm name path = .error e →
        e = .externalFieldsNotAllowed path ∨ e = .schemaNotDefined name ∨
          e = .fieldNotFound path) := by
  refine ⟨?_, ?_, ?_, ?_, ?_⟩
  · intro h; subst h; rfl
  · intro m h hl; subst h; simp [ImportField, hl]
  · intro m s h hl hf; subst h; simp [ImportField, hl, hf]
  · intro m s fd h hl hf; subst h; simp [ImportField, hl, hf]
  · intro e he
    match dm with
    | none =>
      left
      have : Err.externalFieldsNotAllowed path = e := by
        have := he.symm.trans (show ImportField none name path
          = .error (.externalFieldsNotAllowed path) from rfl)
        exact (Except.error.inj this).symm
      rw [this.symm]
    | some m =>
      rcases hl : lookupSchema name m.schema with _ | s
      · right; left
        simp only [ImportField, hl] at he
        exact (Except.error.inj he).symm
      · rcases hf : FindElementDefinition path s with _ | fd
        · right; right
          simp only [ImportField, hl, hf] at he
          exact (Except.error.inj he).symm
        · simp only [ImportField, hl, hf] at he
          exact absurd he (by simp)

/-- Witness for C4: the nil manager rejects any external field with the
external-fields-not-allowed error. -/
theorem claim_C4_witness :
    ImportField none "ecs" "event.outcome"
      = .error (.externalFieldsNotAllowed "event.outcome") :=
  (claim_C4_importField_spec none "ecs" "event.outcome").1 rfl

/-- Counterexample to C1 as stated: on the manifest scenario the engine
does not recurse into the external node's fields, so the outcome child
keeps only its name attribute and never receives the imported keyword
type. -/
theorem claim_C1_counterexample :
    InjectFields (some ecsManager) 10 scenarioInput = .result [scenarioMergedEvent] true none
    ∧ getValue "fields" scenarioMergedEvent = some (.vMapList [[("name", .vStr "outcome")]])
    ∧ getValue "type" [("name", Value.vStr "outcome")] = none
    ∧ [[("name", Value.vStr "outcome")]]
        ≠ [[("name", Value.vStr "outcome"), ("type", Value.vStr "keyword")]] := by
  refine ⟨rfl, rfl, rfl, ?_⟩
  simp

/-- C1 (amended): injecting the scenario tree removes the event node's
external marker, forces the imported group type, reports changed = true,
and leaves the local fields collection unchanged, because the external
branch does not recurse into nested fields. -/
theorem claim_C1_scenario :
    InjectFields (some ecsManager) 10 scenarioInput = .result [scenarioMergedEvent] true none
    ∧ getValue "external" scenarioMergedEvent = none
    ∧ getValue "type" scenarioMergedEvent = some (.vStr "group")
    ∧ getValue "name" scenarioMergedEvent = some (.vStr "event")
    ∧ getValue "fields" scenarioMergedEvent = some (.vMapList [[("name", .vStr "outcome")]]) :=
  ⟨rfl, rfl, rfl, rfl, rfl⟩

theorem inject_error_no_partial (dm : Option DependencyManager) (fuel : Nat)
    (root : String) (defs : List MapStr) (upd : List MapStr) (ch : Bool) (e : Err)
    (h : injectFieldsWithRoot dm fuel root defs = .result upd ch (some e)) :
    upd = [] ∧ ch = false := by
  cases fuel with
  | zero => exact InjectOut.noConfusion h
  | succ f =>
    cases defs with
    | nil => cases h
    | cons d rest =>
      simp only [injectFieldsWithRoot] at h
      repeat' split at h
      all_goals cases h <;> exact ⟨rfl, rfl⟩

/-- C5: whenever injection fails, the whole call returns no merged tree at
all together with a false changed flag; no partial tree accompanies an
error. -/
theorem claim_C5_no_partial_output (dm : Option DependencyManager) (fuel : Nat)
    (defs : List MapStr) (upd : List MapStr) (ch : Bool) (e : Err)
    (h : InjectFields dm fuel defs = .result upd ch (some e)) :
    upd = [] ∧ ch = false :=
  inject_error_no_partial dm fuel "" defs upd ch e h

/-- Witness for C5: the nil manager fails on an external field and returns
the empty tree with a false changed flag. -/
theorem claim_C5_witness : ([] : List MapStr) = [] ∧ false = false :=
  claim_C5_no_partial_output none 2 [[("name", .vStr "a"), ("external", .vStr "ecs")]]
    [] false (.wrap "can't import field" (.externalFieldsNotAllowed "a")) rfl

/-- Counterexample to C7 as stated: a tree containing only a group node
with an empty fields collection holds no external markers at any depth,
yet injection prunes the node and returns a different tree. -/
theorem claim_C7_counterexample :
    InjectFields (some ecsManager) 5
        [[("name", .vStr "g"), ("type", .vStr "group"), ("fields", .vMapList [])]]
      = .result [] false none
    ∧ getValue "external"
        [("name", Value.vStr "g"), ("type", Value.vStr "group"), ("fields", Value.vMapList [])]
        = none
    ∧ ([] : List MapStr)
        ≠ [[("name", Value.vStr "g"), ("type", Value.vStr "group"),
            ("fields", Value.vMapList [])]] := by
  refine ⟨rfl, rfl, ?_⟩
  simp

theorem inject_alreadyInjected (dm : Option DependencyManager) :
    ∀ (fuel : Nat) (root : String) (defs : List MapStr),
      alreadyInjected fuel defs = true →
      injectFieldsWithRoot dm fuel root defs = .result defs false none := by
  intro fuel
  induction fuel with
  | zero => intro root defs h; simp [alreadyInjected] at h
  | succ f ih =>
    intro root defs h
    cases defs with
    | nil => rfl
    | cons d rest =>
      simp only [alreadyInjected, Bool.and_eq_true] at h
      obtain ⟨⟨⟨⟨hname, hext⟩, hskip⟩, hfields⟩, hrest⟩ := h
      have hnamex : ∃ n, getValue "name" d = some (.vStr n) := by
        rcases hgn : getValue "name" d with _ | v
        · rw [hgn] at hname; cases hname
        · cases v <;> rw [hgn] at hname <;> first | exact ⟨_, rfl⟩ | cases hname
      obtain ⟨n, hn⟩ := hnamex
      have hext' : getValue "external" d = none := Option.isNone_iff_eq_none.mp hext
      have hskip' : skipField d = false := by simpa using hskip
      rcases hfv : getValue "fields" d with _ | w
      · simp only [injectFieldsWithRoot, buildFieldPath, hn, hext', hfv,
          ih root rest hrest, hskip', Bool.false_or, Bool.false_eq_true, if_false]
      · have hw : ∃ l, w = .vMapList l ∧ alreadyInjected f l = true := by
          rw [hfv] at hfields
          cases w <;> first | exact ⟨_, rfl, hfields⟩ | cases hfields
        obtain ⟨l, hwl, hsub⟩ := hw
        subst hwl
        simp only [injectFieldsWithRoot, buildFieldPath, hn, hext', hfv, toMapStrSlice,
          ih _ l hsub, ih root rest hrest, put_eq_self _ _ _ hfv, hskip',
          Bool.false_or, Bool.false_eq_true, if_false]

/-- C7 (amended): on every already-injected tree in canonical shape (string
names everywhere, no external markers, no prunable group nodes, nested
fields stored as MapStr slices) injection reports changed = false and
returns the tree unchanged. -/
theorem claim_C7_idempotent (dm : Option DependencyManager) (fuel : Nat) (defs : List MapStr)
    (h : alreadyInjected fuel defs = true) :
    InjectFields dm fuel defs = .result defs false none :=
  inject_alreadyInjected dm fuel "" defs h

/-- Witness for C7 on a concrete injected tree. -/
theorem claim_C7_witness :
    InjectFields (some ecsManager) 3 [[("name", .vStr "a"), ("type", .vStr "keyword")]]
      = .result [[("name", .vStr "a"), ("type", .vStr "keyword")]] false none :=
  claim_C7_idempotent (some ecsManager) 3
    [[("name", .vStr "a"), ("type", .vStr "keyword")]] rfl

theorem inject_wellFormed_no_panic (dm : Option DependencyManager) :
    ∀ (fuel : Nat) (root : String) (defs : List MapStr),
      wellFormedFields fuel defs = true →
      injectFieldsWithRoot dm fuel root defs ≠ .panics := by
  intro fuel
  induction fuel with
  | zero => intro root defs h; simp [wellFormedFields] at h
  | succ f ih =>
    intro root defs h
    cases defs with
    | nil => intro hc; simp [injectFieldsWithRoot] at hc
    | cons d rest =>
      simp only [wellFormedFields, Bool.and_eq_true] at h
      obtain ⟨⟨hname, hbranch⟩, hrest⟩ := h
      have hnamex : ∃ n, getValue "name" d = some (.vStr n) := by
        rcases hgn : getValue "name" d with _ | v
        · rw [hgn] at hname; cases hname
        · cases v <;> rw [hgn] at hname <;> first | exact ⟨_, rfl⟩ | cases hname
      obtain ⟨n, hn⟩ := hnamex
      have htail := ih root rest hrest
      rcases hx : getValue "external" d with _ | xv
      · rcases hfv : getValue "fields" d with _ | w
        · simp only [injectFieldsWithRoot, buildFieldPath, hn, hx, hfv]
          rcases hres : injectFieldsWithRoot dm f root rest with _ | _ | ⟨u, c, err⟩
          · nofun
          · exact absurd hres htail
          · rcases err with _ | e <;> nofun
        · rcases hconv : toMapStrSlice w with e | l
          · simp only [injectFieldsWithRoot, buildFieldPath, hn, hx, hfv, hconv]
            nofun
          · have hsub : wellFormedFields f l = true := by
              simpa only [hx, hfv, hconv] using hbranch
            have hrec := ih (if root == "" then n else root ++ "." ++ n) l hsub
            simp only [injectFieldsWithRoot, buildFieldPath, hn, hx, hfv, hconv]
            rcases hres : injectFieldsWithRoot dm f
                (if root == "" then n else root ++ "." ++ n) l with _ | _ | ⟨u, c, err⟩
            · nofun
            · exact absurd hres hrec
            · rcases err with _ | e
              · rcases htr : injectFieldsWithRoot dm f root rest with _ | _ | ⟨u2, c2, err2⟩
                · nofun
                · exact absurd htr htail
                · rcases err2 with _ | e2 <;> nofun
              · nofun
      · have hxv : ∃ s, xv = .vStr s := by
          rw [hx] at hbranch
          cases xv <;> first | exact ⟨_, rfl⟩ | cases hbranch
        obtain ⟨s, hxs⟩ := hxv
        subst hxs
        simp only [injectFieldsWithRoot, buildFieldPath, hn, hx]
        rcases himp : ImportField dm s (if root == "" then n else root ++ "." ++ n)
            with e | imported
        · nofun
        · rcases htr : injectFieldsWithRoot dm f root rest with _ | _ | ⟨u2, c2, err2⟩
          · nofun
          · exact absurd htr htail
          · rcases err2 with _ | e2 <;> nofun

/-- C10: on every input tree in which each reachable node carries a string
name and externals, when present, are strings, the unchecked type
assertions of path building and external resolution are unreachable and
injection never panics. -/
theorem claim_C10_no_panic (dm : Option DependencyManager) (fuel : Nat)
    (defs : List MapStr) (h : wellFormedFields fuel defs = true) :
    InjectFields dm fuel defs ≠ .panics :=
  inject_wellFormed_no_panic dm fuel "" defs h

/-- Witness for C10 on a concrete well-formed tree with an external node. -/
theorem claim_C10_witness :
    InjectFields (some ecsManager) 4
      [[("name", .vStr "event"), ("external", .vStr "ecs")],
       [("name", .vStr "g"), ("fields", .vMapList [[("name", .vStr "x")]])]] ≠ .panics :=
  claim_C10_no_panic (some ecsManager) 4
    [[("name", .vStr "event"), ("external", .vStr "ecs")],
     [("name", .vStr "g"), ("fields", .vMapList [[("name", .vStr "x")]])]] rfl

/-- C8: every reference without the required git prefix fails schema
loading with the configuration error, and the empty action trace shows
that no cache read, no fetch and no cache write is attempted. -/
theorem claim_C8_bad_reference (reference : String) (w : FetchWorld)
    (h : ¬ gitReferencePrefix.toList <+: reference.toList) :
    readECSFieldsSchemaFile reference w
      = (.error (.wrap "can't process the value as Git reference" .invalidGitReference), []) := by
  simp only [String.toList] at h
  simp [readECSFieldsSchemaFile, asGitReference, h]

/-- Witness for C8: a plain version tag without the prefix is rejected
with an empty action trace. -/
theorem claim_C8_witness :
    readECSFieldsSchemaFile "v8.0.0"
        ⟨true, .notExist, some (200, some "content"), true, true, .ok []⟩
      = (.error (.wrap "can't process the value as Git reference" .invalidGitReference), []) :=
  claim_C8_bad_reference "v8.0.0" _ (by decide)

/-- C6: on a cache hit the loader returns the cached bytes with no fetch;
on a cache miss it fetches once and writes the cache once; a 404 response
is the distinct terminal unsatisfied-dependency error, and any other
non-success status is a generic fetch error. -/
theorem claim_C6_schema_loading (reference : String) (w : FetchWorld)
    (href : gitReferencePrefix.toList <+: reference.toList)
    (hloc : w.locOk = true) :
    (∀ c, w.cacheFile = .content c →
        readECSFieldsSchemaFile reference w = (.ok c, [.cacheRead])) ∧
    (∀ body, w.cacheFile = .notExist → w.httpGet = some (200, some body) →
        w.mkdirOk = true → w.writeOk = true →
        readECSFieldsSchemaFile reference w
          = (.ok body, [.cacheRead, .fetch, .cacheWrite])) ∧
    (∀ b, w.cacheFile = .notExist → w.httpGet = some (404, b) →
        readECSFieldsSchemaFile reference w
          = (.error .unsatisfiedDependency, [.cacheRead, .fetch])) ∧
    (∀ s b, w.cacheFile = .notExist → w.httpGet = some (s, b) → s ≠ 404 → s ≠ 200 →
        readECSFieldsSchemaFile reference w
          = (.error (.unexpectedStatus s), [.cacheRead, .fetch])) := by
  simp only [String.toList] at href
  refine ⟨?_, ?_, ?_, ?_⟩
  · intro c hc
    simp [readECSFieldsSchemaFile, asGitReference, href, hloc, hc]
  · intro body hc hhttp hmk hwr
    simp [readECSFieldsSchemaFile, asGitReference, href, hloc, hc, hhttp, hmk, hwr]
  · intro b hc hhttp
    simp [readECSFieldsSchemaFile, asGitReference, href, hloc, hc, hhttp]
  · intro s b hc hhttp h404 h200
    simp [readECSFieldsSchemaFile, asGitReference, href, hloc, hc, hhttp, h404, h200]

/-- Witness for C6: a cache hit returns the cached content with only a
cache read in the trace. -/
theorem claim_C6_witness :
    readECSFieldsSchemaFile "git@v8.0.0"
        ⟨true, .content "cached", some (200, some "x"), true, true, .ok []⟩
      = (.ok "cached", [.cacheRead]) :=
  (claim_C6_schema_loading "git@v8.0.0" _ (by decide) rfl).1 "cached" rfl

theorem findInSegments_nil : ∀ segs, findInSegments segs ([] : List FieldDefinition) = none
  | [] => rfl
  | [_] => rfl
  | _ :: _ :: _ => rfl

/-- C9: with an empty ECS reference the manager is still created, the ecs
key is registered and maps to the empty definition list, and every later
ecs import fails with the field-not-found error for its path, never with
the schema-not-defined error. -/
theorem claim_C9_empty_reference (deps : Dependencies) (w : FetchWorld)
    (h : deps.ecs.reference = "") :
    CreateFieldDependencyManager deps w = (.ok ⟨[("ecs", [])]⟩, []) ∧
    lookupSchema "ecs" [("ecs", ([] : List FieldDefinition))] = some [] ∧
    (∀ p, ImportField (some ⟨[("ecs", [])]⟩) "ecs" p = .error (.fieldNotFound p)) := by
  refine ⟨?_, rfl, ?_⟩
  · simp [CreateFieldDependencyManager, buildFieldsSchema, loadECSFieldsSchema, h,
      ecsSchemaName]
  · intro p
    simp [ImportField, lookupSchema, FindElementDefinition, findInSegments_nil]

/-- Witness for C9 at a concrete empty-reference manifest. -/
theorem claim_C9_witness :
    CreateFieldDependencyManager ⟨⟨""⟩⟩ ⟨true, .notExist, none, true, true, .ok []⟩
        = (.ok ⟨[("ecs", [])]⟩, [])
    ∧ ImportField (some ⟨[("ecs", [])]⟩) "ecs" "event.outcome"
        = .error (.fieldNotFound "event.outcome") := by
  have h := claim_C9_empty_reference ⟨⟨""⟩⟩ ⟨true, .notExist, none, true, true, .ok []⟩ rfl
  exact ⟨h.1, h.2.2 "event.outcome"⟩
